import Mathlib

/-!
Verification of the streaming Server-Sent-Events parser of
`wefixers/fetch-event-source` (`src/index.ts`).

Modelling conventions:
* A byte is a `Nat`; a chunk is a `List Nat`; the upstream reader is a
  `List (List Nat)` of chunks (the list ends = the stream is done).
* `TextDecoder` decoding is modelled as the identity on byte sequences:
  strings are represented by their byte sequences.  All inputs appearing in
  the specification are ASCII, where UTF-8 decoding is injective, so the
  comparisons performed by the code (`field === "data"` etc.) coincide with
  byte-sequence comparisons.
* The async generators become pure functions from the chunk list to the list
  of values they yield.
-/

namespace FetchEventSource

/-- Control characters of the wire format (`const enum ControlChars`). -/
def NewLine : Nat := 10
def CarriageReturn : Nat := 13
def Space : Nat := 32
def Colon : Nat := 58

/-- One yield of `createLineReader`: the line bytes and the tracked
`fieldLength` (byte offset of the first colon of the line, `-1` if none). -/
structure LineOut where
  line : List Nat
  fieldLength : Int
deriving DecidableEq, Repr

/-- The inner `for` loop of `createLineReader` (lines 61-76 of the source):
scan forward from `position` looking for the end of the current line,
recording the first colon of the line in `fieldLength`.  The scan is
expressed structurally on the unread suffix of the buffer; `position` and
`lineStart` are the absolute indices of the source.  Returns
`((lineEnd?, bytes after the terminator), position after the loop,
fieldLength)`; `lineEnd?` carries the terminator index and whether the
terminator was a carriage return (which sets `discardTrailingNewline`). -/
def findLineEndAux : List Nat → Nat → Nat → Int →
    (Option (Nat × Bool) × List Nat) × Nat × Int
  | [], position, _, fieldLength => ((none, []), position, fieldLength)
  | c :: rest, position, lineStart, fieldLength =>
    if c = Colon then
      findLineEndAux rest (position + 1) lineStart
        (if fieldLength = -1 then ((position : Int) - (lineStart : Int)) else fieldLength)
    else if c = CarriageReturn then ((some (position, true), rest), position + 1, fieldLength)
    else if c = NewLine then ((some (position, false), rest), position + 1, fieldLength)
    else findLineEndAux rest (position + 1) lineStart fieldLength

/-- The inner `for` loop of `createLineReader`, at absolute buffer indices. -/
def findLineEnd (buffer : List Nat) (position lineStart : Nat) (fieldLength : Int) :
    (Option (Nat × Bool) × List Nat) × Nat × Int :=
  findLineEndAux (buffer.drop position) position lineStart fieldLength

/-- Result of the `while (position < bufLength)` loop of `createLineReader`. -/
structure ScanResult where
  outs : List LineOut
  position : Nat
  lineStart : Nat
  fieldLength : Int
  discard : Bool
deriving Repr

/-- The `while (position < bufLength)` loop of `createLineReader`
(lines 50-90 of the source).  Each iteration consumes at least one byte, so
`fuel := buffer.length` iterations always suffice; when the fuel runs out the
loop can only be at `position ≥ buffer.length`, where the zero-fuel branch
returns exactly what the loop-exit branch returns. -/
def scanLines : Nat → List Nat → Nat → Nat → Int → Bool → ScanResult
  | 0, _, position, lineStart, fieldLength, discard =>
    ⟨[], position, lineStart, fieldLength, discard⟩
  | fuel + 1, buffer, position, lineStart, fieldLength, discard =>
    if h : position < buffer.length then
      -- the discardTrailingNewline check at the top of the loop
      let skipLF : Bool := discard && (buffer.get ⟨position, h⟩ == NewLine)
      let pd := if skipLF then position + 1 else position
      let ls := if skipLF then position + 1 else lineStart
      match findLineEnd buffer pd ls fieldLength with
      | ((none, _), pos', f') =>
        -- line has not ended: break, wait for the next chunk
        ⟨[], pos', ls, f', false⟩
      | ((some (lineEnd, isCR), _), pos', f') =>
        -- line end reached: yield the line and continue on the next line
        let out : LineOut := ⟨(buffer.take lineEnd).drop ls, f'⟩
        let r := scanLines fuel buffer pos' pos' (-1) isCR
        ⟨out :: r.outs, r.position, r.lineStart, r.fieldLength, r.discard⟩
    else ⟨[], position, lineStart, fieldLength, discard⟩

/-- The persistent state of `createLineReader` between two chunk reads. -/
structure LRState where
  buffer : Option (List Nat)
  position : Nat
  fieldLength : Int
  discardTrailingNewline : Bool
deriving Repr

/-- One iteration of the outer `while (!(result = await reader.read()).done)`
loop of `createLineReader` (lines 32-100): merge the incoming chunk into the
buffer, scan it for complete lines, and drop the consumed part. -/
def processChunk (st : LRState) (arr : List Nat) : LRState × List LineOut :=
  let buf := match st.buffer with | none => arr | some b => b ++ arr
  let pos0 := match st.buffer with | none => 0 | some _ => st.position
  let f0 : Int := match st.buffer with | none => -1 | some _ => st.fieldLength
  let r := scanLines buf.length buf pos0 0 f0 st.discardTrailingNewline
  let st' : LRState :=
    if r.lineStart = buf.length then
      ⟨none, r.position, r.fieldLength, r.discard⟩
    else if r.lineStart ≠ 0 then
      ⟨some (buf.drop r.lineStart), r.position - r.lineStart, r.fieldLength, r.discard⟩
    else
      ⟨some buf, r.position, r.fieldLength, r.discard⟩
  (st', r.outs)

/-- Feed a list of chunks through `processChunk`. -/
def runChunks : LRState → List (List Nat) → LRState × List LineOut
  | st, [] => (st, [])
  | st, c :: cs =>
    let p := processChunk st c
    let q := runChunks p.1 cs
    (q.1, p.2 ++ q.2)

/-- The initial state of `createLineReader`. -/
def initLR : LRState := ⟨none, 0, -1, false⟩

/-- `createLineReader`, as the function from the chunk sequence delivered by
the reader to the sequence of yielded lines, including the final flush of a
still-buffered non-terminated line (lines 102-106 of the source). -/
def createLineReader (chunks : List (List Nat)) : List LineOut :=
  let r := runChunks initLR chunks
  match r.1.buffer with
  | none => r.2
  | some b => r.2 ++ [⟨b, r.1.fieldLength⟩]

/-! ### A single-byte reference machine for the line splitter

`createLineReader` consumes its input chunk by chunk, buffering partial
lines.  The reference machine below consumes one byte at a time; proving the
chunk machine equivalent to it yields chunk-boundary invariance, because the
byte machine only sees the concatenation of the chunks. -/

/-- State of the byte-at-a-time reference machine: the bytes of the current
(unfinished) line, the tracked first-colon offset, and whether a carriage
return was just consumed (so an immediately following newline is skipped). -/
structure ByteState where
  pending : List Nat
  fieldLength : Int
  discard : Bool
deriving DecidableEq, Repr

/-- Consume one byte: either skip a newline after a carriage return, record a
colon, emit the pending line on a terminator, or append the byte. -/
def stepByte (s : ByteState) (c : Nat) : ByteState × List LineOut :=
  if s.discard = true ∧ c = NewLine then (⟨[], s.fieldLength, false⟩, [])
  else if c = Colon then
    (⟨s.pending ++ [Colon],
      if s.fieldLength = -1 then (s.pending.length : Int) else s.fieldLength, false⟩, [])
  else if c = CarriageReturn then (⟨[], -1, true⟩, [⟨s.pending, s.fieldLength⟩])
  else if c = NewLine then (⟨[], -1, false⟩, [⟨s.pending, s.fieldLength⟩])
  else (⟨s.pending ++ [c], s.fieldLength, false⟩, [])

/-- Run the byte machine over a byte sequence. -/
def runBytes : ByteState → List Nat → ByteState × List LineOut
  | s, [] => (s, [])
  | s, c :: cs =>
    let p := stepByte s c
    let q := runBytes p.1 cs
    (q.1, p.2 ++ q.2)

def initByte : ByteState := ⟨[], -1, false⟩

/-- The byte-machine version of the whole line reader: run over the bytes,
then flush a non-empty pending line. -/
def lineReaderBytes (bytes : List Nat) : List LineOut :=
  let r := runBytes initByte bytes
  if r.1.pending = [] then r.2 else r.2 ++ [⟨r.1.pending, r.1.fieldLength⟩]

/-! ### The field parser (`readEventMessagePart`) -/

/-- A typed field part (`EventSourceMessagePart` of the source), with string
payloads represented by their byte sequences. -/
inductive EventSourceMessagePart where
  | empty
  | data (value : List Nat)
  | event (value : List Nat)
  | id (value : List Nat)
  | retry (value : Int)
deriving DecidableEq, Repr

/-- `isEventSourceMessagePartEmpty` of the source. -/
def isEventSourceMessagePartEmpty : EventSourceMessagePart → Bool
  | .empty => true
  | _ => false

/-- Byte sequence of an ASCII string literal (UTF-8 encoding restricted to
ASCII, which is all the specification uses). -/
def strBytes (s : String) : List Nat := s.data.map Char.toNat

/-- JavaScript whitespace bytes skipped by `parseInt` (the byte-valued ones:
tab, line feed, vertical tab, form feed, carriage return, space). -/
def isJsWhitespace (c : Nat) : Bool :=
  decide (c = 9 ∨ c = 10 ∨ c = 11 ∨ c = 12 ∨ c = 13 ∨ c = 32)

/-- An ASCII decimal digit. -/
def isDigit (c : Nat) : Bool := decide (48 ≤ c ∧ c ≤ 57)

/-- Numeric value of a digit sequence. -/
def digitsValue (l : List Nat) : Nat := l.foldl (fun acc c => acc * 10 + (c - 48)) 0

/-- `parseInt(value, 10)` of JavaScript on a byte sequence: skip leading
whitespace, read an optional sign, then the longest leading run of decimal
digits; `none` models `NaN` (no digits at all). -/
def parseInt10 (s : List Nat) : Option Int :=
  let t := s.dropWhile isJsWhitespace
  match t with
  | 45 :: rest =>
    let ds := rest.takeWhile isDigit
    if ds = [] then none else some (-(digitsValue ds : Int))
  | 43 :: rest =>
    let ds := rest.takeWhile isDigit
    if ds = [] then none else some (digitsValue ds : Int)
  | _ =>
    let ds := t.takeWhile isDigit
    if ds = [] then none else some (digitsValue ds : Int)

/-- The `value` computed by `readEventMessagePart` (lines 184-186 of the
source): the bytes after the separator, where the byte right after the
separator is additionally skipped when it is a space. -/
def fieldValue (line : List Nat) (fieldLength : Nat) : List Nat :=
  line.drop (fieldLength + (if line.get? (fieldLength + 1) = some Space then 2 else 1))

/-- The body of the `for await` loop of `readEventMessagePart`
(lines 175-207 of the source), mapping one yielded line to the (zero or one)
field parts produced for it. -/
def readPart (lo : LineOut) : List EventSourceMessagePart :=
  if lo.line.length = 0 then [.empty]
  else if 0 < lo.fieldLength then
    let fl := lo.fieldLength.toNat
    let field := lo.line.take fl
    let value := fieldValue lo.line fl
    if field = strBytes "data" then [.data value]
    else if field = strBytes "event" then [.event value]
    else if field = strBytes "id" then [.id value]
    else if field = strBytes "retry" then
      match parseInt10 value with
      | some n => [.retry n]
      | none => []
    else []
  else []

/-- `readEventMessagePart`: the field parts produced for a chunk stream. -/
def readEventMessagePart (chunks : List (List Nat)) : List EventSourceMessagePart :=
  ((createLineReader chunks).map readPart).flatten

/-! ### The message assembler (`createEventMessageReader`) -/

/-- `EventSourceMessage` of the source, with strings as byte sequences. -/
structure EventSourceMessage where
  id : List Nat
  event : List Nat
  data : List Nat
  retry : Option Int
deriving DecidableEq, Repr

/-- The fresh all-default message. -/
def initialMessage : EventSourceMessage := ⟨[], [], [], none⟩

/-- The `switch (part.type)` body of `createEventMessageReader`
(lines 221-252 of the source): fold one field part into the in-progress
message, returning the new message and the messages yielded. -/
def stepMessage (message : EventSourceMessage) :
    EventSourceMessagePart → EventSourceMessage × List EventSourceMessage
  | .empty => (initialMessage, [message])
  | .data v =>
    ({ message with
        data := if message.data = [] then v else message.data ++ NewLine :: v }, [])
  | .event v => ({ message with event := v }, [])
  | .id v => ({ message with id := v }, [])
  | .retry n => ({ message with retry := some n }, [])

/-- Fold a field-part sequence through `stepMessage`. -/
def runAssembler : EventSourceMessage → List EventSourceMessagePart →
    EventSourceMessage × List EventSourceMessage
  | m, [] => (m, [])
  | m, p :: ps =>
    let q := stepMessage m p
    let r := runAssembler q.1 ps
    (r.1, q.2 ++ r.2)

/-- `createEventMessageReader`: the messages yielded for a chunk stream,
including the unconditional final `yield message` (line 255 of the source). -/
def createEventMessageReader (chunks : List (List Nat)) : List EventSourceMessage :=
  let r := runAssembler initialMessage (readEventMessagePart chunks)
  r.2 ++ [r.1]

/-! ### Correspondence between the chunk machine and the byte machine -/

theorem runBytes_append (s : ByteState) (a b : List Nat) :
    runBytes s (a ++ b) =
      ((runBytes (runBytes s a).1 b).1,
        (runBytes s a).2 ++ (runBytes (runBytes s a).1 b).2) := by
  induction a generalizing s with
  | nil => simp [runBytes]
  | cons c cs ih => simp [runBytes, ih, List.append_assoc]

theorem stepByte_false (pend : List Nat) (f : Int) (c : Nat) :
    stepByte ⟨pend, f, false⟩ c =
      if c = Colon then
        (⟨pend ++ [Colon], if f = -1 then (pend.length : Int) else f, false⟩, [])
      else if c = CarriageReturn then (⟨[], -1, true⟩, [⟨pend, f⟩])
      else if c = NewLine then (⟨[], -1, false⟩, [⟨pend, f⟩])
      else (⟨pend ++ [c], f, false⟩, []) := by
  simp [stepByte]

/-- The `for` loop of the line splitter agrees with the byte machine: when it
exits without finding a terminator it has appended the whole suffix to the
pending line, and when it finds a terminator it has consumed exactly the
bytes up to the terminator and emitted one line. -/
theorem findLineEndAux_spec (s : List Nat) :
    ∀ (pend : List Nat) (p l : Nat) (f : Int), l ≤ p → pend.length = p - l →
    (∀ rem p' f', findLineEndAux s p l f = ((none, rem), p', f') →
        p' = p + s.length ∧
          runBytes ⟨pend, f, false⟩ s = (⟨pend ++ s, f', false⟩, [])) ∧
    (∀ le isCR rem p' f', findLineEndAux s p l f = ((some (le, isCR), rem), p', f') →
        ∃ pre, s = pre ++ (if isCR then CarriageReturn else NewLine) :: rem ∧
          p' = le + 1 ∧ le = p + pre.length ∧
          runBytes ⟨pend, f, false⟩ (pre ++ [if isCR then CarriageReturn else NewLine])
            = (⟨[], -1, isCR⟩, [⟨pend ++ pre, f'⟩])) := by
  induction s with
  | nil =>
    intro pend p l f hl hp
    constructor
    · intro rem p' f' h
      simp only [findLineEndAux, Prod.mk.injEq] at h
      obtain ⟨⟨-, -⟩, hp', hf'⟩ := h
      subst hp' hf'
      simp [runBytes]
    · intro le isCR rem p' f' h
      simp [findLineEndAux] at h
  | cons c rest ih =>
    intro pend p l f hl hp
    by_cases hc : c = Colon
    · subst hc
      have hstep : stepByte ⟨pend, f, false⟩ Colon =
          (⟨pend ++ [Colon], if f = -1 then ((p : Int) - (l : Int)) else f, false⟩, []) := by
        rw [stepByte_false]
        simp only [if_pos rfl]
        have : (pend.length : Int) = (p : Int) - (l : Int) := by omega
        simp [this]
      have hunfold : findLineEndAux (Colon :: rest) p l f =
          findLineEndAux rest (p + 1) l
            (if f = -1 then ((p : Int) - (l : Int)) else f) := by
        simp [findLineEndAux]
      have ihx := ih (pend ++ [Colon]) (p + 1) l
        (if f = -1 then ((p : Int) - (l : Int)) else f)
        (Nat.le_succ_of_le hl) (by simp; omega)
      constructor
      · intro rem p' f' h
        rw [hunfold] at h
        obtain ⟨hpos, hrun⟩ := ihx.1 rem p' f' h
        refine ⟨by simpa [Nat.add_comm, Nat.add_assoc, Nat.add_left_comm] using hpos, ?_⟩
        simp only [runBytes, hstep, hrun]
        simp [List.append_assoc]
      · intro le isCR rem p' f' h
        rw [hunfold] at h
        obtain ⟨pre, hs, hp', hle, hrun⟩ := ihx.2 le isCR rem p' f' h
        refine ⟨Colon :: pre, by simp [hs], hp', by simp [hle]; omega, ?_⟩
        simp only [List.cons_append, runBytes, hstep, List.nil_append]
        simpa using hrun
    · by_cases hcr : c = CarriageReturn
      · subst hcr
        constructor
        · intro rem p' f' h
          simp [findLineEndAux, hc] at h
        · intro le isCR rem p' f' h
          rw [show findLineEndAux (CarriageReturn :: rest) p l f =
              ((some (p, true), rest), p + 1, f) by
            simp [findLineEndAux, CarriageReturn, Colon]] at h
          obtain ⟨⟨⟨hle, hcr'⟩, hrem⟩, hp', hf'⟩ := by
            simpa only [Prod.mk.injEq, Option.some.injEq] using h
          subst hle hrem hp' hf'
          subst hcr'
          refine ⟨[], by simp, rfl, by simp, ?_⟩
          simp [runBytes, stepByte_false,
            (by decide : CarriageReturn ≠ Colon)]
      · by_cases hnl : c = NewLine
        · subst hnl
          constructor
          · intro rem p' f' h
            simp [findLineEndAux, hc, hcr] at h
          · intro le isCR rem p' f' h
            rw [show findLineEndAux (NewLine :: rest) p l f =
                ((some (p, false), rest), p + 1, f) by
              simp [findLineEndAux, NewLine, CarriageReturn, Colon]] at h
            obtain ⟨⟨⟨hle, hcr'⟩, hrem⟩, hp', hf'⟩ := by
              simpa only [Prod.mk.injEq, Option.some.injEq] using h
            subst hle hrem hp' hf'
            subst hcr'
            refine ⟨[], by simp, rfl, by simp, ?_⟩
            simp [runBytes, stepByte_false,
              (by decide : NewLine ≠ Colon), (by decide : NewLine ≠ CarriageReturn)]
        · have hstep : stepByte ⟨pend, f, false⟩ c = (⟨pend ++ [c], f, false⟩, []) := by
            rw [stepByte_false]
            simp [hc, hcr, hnl]
          have hunfold : findLineEndAux (c :: rest) p l f =
              findLineEndAux rest (p + 1) l f := by
            simp [findLineEndAux, hc, hcr, hnl]
          have ihx := ih (pend ++ [c]) (p + 1) l f (Nat.le_succ_of_le hl)
            (by simp; omega)
          constructor
          · intro rem p' f' h
            rw [hunfold] at h
            obtain ⟨hpos, hrun⟩ := ihx.1 rem p' f' h
            refine ⟨by simpa [Nat.add_comm, Nat.add_assoc, Nat.add_left_comm] using hpos, ?_⟩
            simp only [runBytes, hstep, hrun]
            simp [List.append_assoc]
          · intro le isCR rem p' f' h
            rw [hunfold] at h
            obtain ⟨pre, hs, hp', hle, hrun⟩ := ihx.2 le isCR rem p' f' h
            refine ⟨c :: pre, by simp [hs], hp', by simp [hle]; omega, ?_⟩
            simp only [List.cons_append, runBytes, hstep, List.nil_append]
            simpa using hrun

theorem scanLines_at_end (fuel : Nat) (buffer : List Nat) (p l : Nat) (f : Int) (d : Bool)
    (h : ¬p < buffer.length) :
    scanLines fuel buffer p l f d = ⟨[], p, l, f, d⟩ := by
  cases fuel with
  | zero => rfl
  | succ fuel => simp [scanLines, dif_neg h]

theorem scanLines_succ_false (fuel : Nat) (buffer : List Nat) (p l : Nat) (f : Int)
    (h : p < buffer.length) :
    scanLines (fuel + 1) buffer p l f false =
      match findLineEnd buffer p l f with
      | ((none, _), pos', f') => ⟨[], pos', l, f', false⟩
      | ((some (lineEnd, isCR), _), pos', f') =>
        ⟨⟨(buffer.take lineEnd).drop l, f'⟩ ::
            (scanLines fuel buffer pos' pos' (-1) isCR).outs,
          (scanLines fuel buffer pos' pos' (-1) isCR).position,
          (scanLines fuel buffer pos' pos' (-1) isCR).lineStart,
          (scanLines fuel buffer pos' pos' (-1) isCR).fieldLength,
          (scanLines fuel buffer pos' pos' (-1) isCR).discard⟩ := by
  simp only [scanLines, dif_pos h, Bool.false_and, if_neg (Bool.false_ne_true)]

theorem scanLines_succ_skip (fuel : Nat) (buffer : List Nat) (p l : Nat) (f : Int)
    (h : p < buffer.length) (hLF : buffer.get ⟨p, h⟩ = NewLine) :
    scanLines (fuel + 1) buffer p l f true =
      scanLines (fuel + 1) buffer (p + 1) (p + 1) f false := by
  by_cases h1 : p + 1 < buffer.length
  · simp only [scanLines, dif_pos h, dif_pos h1, hLF, beq_self_eq_true, Bool.true_and,
      if_pos rfl, Bool.false_and, if_neg (Bool.false_ne_true), if_true]
  · rw [scanLines_at_end (fuel + 1) buffer (p + 1) (p + 1) f false h1]
    have hdrop : buffer.drop (p + 1) = [] := by
      apply List.drop_eq_nil_of_le; omega
    simp only [scanLines, dif_pos h, hLF, beq_self_eq_true, Bool.true_and, if_pos rfl,
      if_true]
    rw [show findLineEnd buffer (p + 1) (p + 1) f = ((none, []), p + 1, f) by
      unfold findLineEnd; rw [hdrop]; rfl]

theorem scanLines_succ_noskip (fuel : Nat) (buffer : List Nat) (p l : Nat) (f : Int)
    (h : p < buffer.length) (hLF : buffer.get ⟨p, h⟩ ≠ NewLine) :
    scanLines (fuel + 1) buffer p l f true =
      scanLines (fuel + 1) buffer p l f false := by
  have hbeq : (buffer.get ⟨p, h⟩ == NewLine) = false := by
    simpa using hLF
  simp only [scanLines, dif_pos h, hbeq, Bool.and_false, Bool.false_and,
    if_neg (Bool.false_ne_true)]

theorem take_drop_append (buffer : List Nat) (p l : Nat) (hl : l ≤ p) (hp : p ≤ buffer.length) :
    (buffer.take p).drop l ++ buffer.drop p = buffer.drop l := by
  conv_rhs => rw [← List.take_append_drop p buffer]
  rw [List.drop_append_of_le_length (by rw [List.length_take]; omega)]

theorem runBytes_true_of_head_ne (pend : List Nat) (f : Int) (c : Nat) (cs : List Nat)
    (hc : c ≠ NewLine) :
    runBytes ⟨pend, f, true⟩ (c :: cs) = runBytes ⟨pend, f, false⟩ (c :: cs) := by
  have hstep : stepByte ⟨pend, f, true⟩ c = stepByte ⟨pend, f, false⟩ c := by
    simp [stepByte, hc]
  simp only [runBytes, hstep]

/-- The `while` loop of the line splitter agrees with the byte machine: run
with enough fuel from a consistent intermediate state, it scans to the end of
the buffer, and the lines it emits are exactly the lines the byte machine
emits on the unscanned suffix, with the pending line, tracked colon offset
and discard flag matching at the end. -/
theorem scanLines_corr (n : Nat) :
    ∀ (buffer : List Nat) (p l : Nat) (f : Int) (d : Bool) (fuel : Nat),
      l ≤ p → p ≤ buffer.length → buffer.length - p ≤ n → buffer.length - p ≤ fuel →
      (scanLines fuel buffer p l f d).position = buffer.length ∧
      (scanLines fuel buffer p l f d).lineStart ≤ buffer.length ∧
      runBytes ⟨(buffer.take p).drop l, f, d⟩ (buffer.drop p)
        = (⟨buffer.drop (scanLines fuel buffer p l f d).lineStart,
            (scanLines fuel buffer p l f d).fieldLength,
            (scanLines fuel buffer p l f d).discard⟩,
          (scanLines fuel buffer p l f d).outs) := by
  induction n with
  | zero =>
    intro buffer p l f d fuel hl hp hn hfuel
    have hpe : p = buffer.length := by omega
    rw [scanLines_at_end fuel buffer p l f d (by omega)]
    subst hpe
    refine ⟨rfl, hl, ?_⟩
    rw [List.drop_eq_nil_of_le (le_refl _), List.take_length]
    simp [runBytes]
  | succ n ihn =>
    intro buffer p l f d fuel hl hp hn hfuel
    by_cases hplt : p < buffer.length
    · cases fuel with
      | zero => exact absurd hfuel (by omega)
      | succ fuel =>
        have hplen : ((buffer.take p).drop l).length = p - l := by
          simp [List.length_drop, List.length_take]; omega
        have hfalse :
            (scanLines (fuel + 1) buffer p l f false).position = buffer.length ∧
            (scanLines (fuel + 1) buffer p l f false).lineStart ≤ buffer.length ∧
            runBytes ⟨(buffer.take p).drop l, f, false⟩ (buffer.drop p)
              = (⟨buffer.drop (scanLines (fuel + 1) buffer p l f false).lineStart,
                  (scanLines (fuel + 1) buffer p l f false).fieldLength,
                  (scanLines (fuel + 1) buffer p l f false).discard⟩,
                (scanLines (fuel + 1) buffer p l f false).outs) := by
          rcases hfind : findLineEnd buffer p l f with ⟨⟨o, rem⟩, pos', f'⟩
          have hfind' : findLineEndAux (buffer.drop p) p l f = ((o, rem), pos', f') := hfind
          cases o with
          | none =>
            obtain ⟨hpos', hrun⟩ :=
              (findLineEndAux_spec (buffer.drop p) ((buffer.take p).drop l) p l f
                hl hplen).1 rem pos' f' hfind'
            have hsl : scanLines (fuel + 1) buffer p l f false = ⟨[], pos', l, f', false⟩ := by
              rw [scanLines_succ_false fuel buffer p l f hplt, hfind]
            rw [hsl]
            refine ⟨?_, ?_, ?_⟩
            · show pos' = buffer.length
              simp [List.length_drop] at hpos'; omega
            · show l ≤ buffer.length
              omega
            · show runBytes ⟨(buffer.take p).drop l, f, false⟩ (buffer.drop p)
                = (⟨buffer.drop l, f', false⟩, [])
              rw [hrun, take_drop_append buffer p l hl (le_of_lt hplt)]
          | some le_cr =>
            rcases le_cr with ⟨lineEnd, isCR⟩
            obtain ⟨pre, hs, hpos', hle, hrun⟩ :=
              (findLineEndAux_spec (buffer.drop p) ((buffer.take p).drop l) p l f
                hl hplen).2 lineEnd isCR rem pos' f' hfind'
            have hlen1 : buffer.length - p = pre.length + 1 + rem.length := by
              have := congrArg List.length hs
              simp [List.length_drop] at this
              omega
            have hposle : pos' ≤ buffer.length := by omega
            have hrem : buffer.drop pos' = rem := by
              have h1 : buffer.drop (p + (pre.length + 1)) = (buffer.drop p).drop (pre.length + 1) :=
                (List.drop_drop (pre.length + 1) p buffer).symm
              have h2 : pos' = p + (pre.length + 1) := by omega
              rw [h2, h1, hs, show pre ++ (if isCR then CarriageReturn else NewLine) :: rem
                  = (pre ++ [if isCR then CarriageReturn else NewLine]) ++ rem by simp,
                List.drop_left' (by simp)]
            have hline : (buffer.take lineEnd).drop l = (buffer.take p).drop l ++ pre := by
              rw [hle, List.take_add, hs,
                List.take_left' (rfl : pre.length = pre.length),
                List.drop_append_of_le_length (by rw [List.length_take]; omega)]
            obtain ⟨h1, h2, h3⟩ := ihn buffer pos' pos' (-1) isCR fuel (le_refl _)
              hposle (by omega) (by omega)
            have hsl : scanLines (fuel + 1) buffer p l f false =
                ⟨⟨(buffer.take lineEnd).drop l, f'⟩ ::
                    (scanLines fuel buffer pos' pos' (-1) isCR).outs,
                  (scanLines fuel buffer pos' pos' (-1) isCR).position,
                  (scanLines fuel buffer pos' pos' (-1) isCR).lineStart,
                  (scanLines fuel buffer pos' pos' (-1) isCR).fieldLength,
                  (scanLines fuel buffer pos' pos' (-1) isCR).discard⟩ := by
              rw [scanLines_succ_false fuel buffer p l f hplt, hfind]
            rw [hsl]
            refine ⟨h1, h2, ?_⟩
            show runBytes ⟨(buffer.take p).drop l, f, false⟩ (buffer.drop p)
              = (⟨buffer.drop (scanLines fuel buffer pos' pos' (-1) isCR).lineStart,
                  (scanLines fuel buffer pos' pos' (-1) isCR).fieldLength,
                  (scanLines fuel buffer pos' pos' (-1) isCR).discard⟩,
                ⟨(buffer.take lineEnd).drop l, f'⟩ ::
                  (scanLines fuel buffer pos' pos' (-1) isCR).outs)
            have hsplit : buffer.drop p
                = (pre ++ [if isCR then CarriageReturn else NewLine]) ++ rem := by
              rw [hs]; simp
            rw [hsplit, runBytes_append, hrun]
            have hempty : (buffer.take pos').drop pos' = [] :=
              List.drop_eq_nil_of_le (by rw [List.length_take]; omega)
            rw [hempty] at h3
            rw [hrem] at h3
            rw [h3]
            simp [hline]
        cases d with
        | false => exact hfalse
        | true =>
          by_cases hc10 : buffer.get ⟨p, hplt⟩ = NewLine
          · rw [scanLines_succ_skip fuel buffer p l f hplt hc10]
            obtain ⟨h1, h2, h3⟩ := ihn buffer (p + 1) (p + 1) f false (fuel + 1)
              (le_refl _) hplt (by omega) (by omega)
            refine ⟨h1, h2, ?_⟩
            rw [List.drop_eq_get_cons hplt, hc10]
            have hstep : stepByte ⟨(buffer.take p).drop l, f, true⟩ NewLine
                = (⟨[], f, false⟩, []) := by
              simp [stepByte]
            simp only [runBytes, hstep]
            have hempty : (buffer.take (p + 1)).drop (p + 1) = [] :=
              List.drop_eq_nil_of_le (by rw [List.length_take]; omega)
            rw [hempty] at h3
            rw [h3]
            simp
          · rw [scanLines_succ_noskip fuel buffer p l f hplt hc10]
            obtain ⟨h1, h2, h3⟩ := hfalse
            refine ⟨h1, h2, ?_⟩
            rw [List.drop_eq_get_cons hplt,
              runBytes_true_of_head_ne _ _ _ _ hc10, ← List.drop_eq_get_cons hplt]
            exact h3
    · have hpe : p = buffer.length := by omega
      rw [scanLines_at_end fuel buffer p l f d hplt]
      subst hpe
      refine ⟨rfl, hl, ?_⟩
      rw [List.drop_eq_nil_of_le (le_refl _), List.take_length]
      simp [runBytes]

/-- Index of the first colon of a byte sequence. -/
def firstColon : List Nat → Option Nat
  | [] => none
  | c :: rest => if c = Colon then some 0 else (firstColon rest).map (· + 1)

/-- The first-colon index as the `fieldLength` convention of the source:
the index itself, or `-1` when there is no colon. -/
def colIdxI (l : List Nat) : Int :=
  match firstColon l with
  | some i => (i : Int)
  | none => -1

/-- Invariant of the byte machine: the tracked `fieldLength` is exactly the
first-colon index of the pending line, and right after a carriage return the
pending line is empty. -/
def byteInv (b : ByteState) : Prop :=
  b.fieldLength = colIdxI b.pending ∧ (b.discard = true → b.pending = [])

theorem firstColon_append_colon (l : List Nat) :
    firstColon (l ++ [Colon]) = some ((firstColon l).getD l.length) := by
  induction l with
  | nil => simp [firstColon]
  | cons c rest ih =>
    by_cases hc : c = Colon
    · simp [firstColon, hc]
    · rw [show (c :: rest) ++ [Colon] = c :: (rest ++ [Colon]) from rfl,
        firstColon, if_neg hc, ih, firstColon, if_neg hc]
      cases h : firstColon rest <;> simp [h]

theorem firstColon_append_nonColon (l : List Nat) (c : Nat) (h : c ≠ Colon) :
    firstColon (l ++ [c]) = firstColon l := by
  induction l with
  | nil => simp [firstColon, h]
  | cons d rest ih =>
    by_cases hd : d = Colon
    · simp [firstColon, hd]
    · simp [firstColon, hd, ih]

theorem colIdxI_nil : colIdxI [] = -1 := rfl

theorem colIdxI_eq_neg_one_iff (l : List Nat) : colIdxI l = -1 ↔ firstColon l = none := by
  unfold colIdxI
  cases h : firstColon l with
  | none => simp
  | some i => simp

theorem colIdxI_append_colon (l : List Nat) :
    colIdxI (l ++ [Colon]) = if colIdxI l = -1 then (l.length : Int) else colIdxI l := by
  unfold colIdxI
  rw [firstColon_append_colon]
  cases h : firstColon l with
  | none =>
    show (l.length : Int) = if (-1 : Int) = -1 then (l.length : Int) else -1
    simp
  | some i =>
    show (i : Int) = if (i : Int) = -1 then (l.length : Int) else (i : Int)
    rw [if_neg (by omega)]

theorem colIdxI_append_nonColon (l : List Nat) (c : Nat) (h : c ≠ Colon) :
    colIdxI (l ++ [c]) = colIdxI l := by
  unfold colIdxI
  rw [firstColon_append_nonColon l c h]

theorem byteInv_step (b : ByteState) (c : Nat) (hb : byteInv b) :
    byteInv (stepByte b c).1 := by
  obtain ⟨h1, h2⟩ := hb
  unfold stepByte
  by_cases hd : b.discard = true ∧ c = NewLine
  · rw [if_pos hd]
    have hpend := h2 hd.1
    refine ⟨?_, fun _ => rfl⟩
    rw [h1, hpend]
  · rw [if_neg hd]
    by_cases hc : c = Colon
    · rw [if_pos hc]
      refine ⟨?_, by simp⟩
      show (if b.fieldLength = -1 then (b.pending.length : Int) else b.fieldLength)
        = colIdxI (b.pending ++ [Colon])
      rw [colIdxI_append_colon, h1]
    · rw [if_neg hc]
      by_cases hcr : c = CarriageReturn
      · rw [if_pos hcr]
        exact ⟨rfl, fun _ => rfl⟩
      · rw [if_neg hcr]
        by_cases hnl : c = NewLine
        · rw [if_pos hnl]
          exact ⟨rfl, fun _ => rfl⟩
        · rw [if_neg hnl]
          refine ⟨?_, by simp⟩
          show b.fieldLength = colIdxI (b.pending ++ [c])
          rw [colIdxI_append_nonColon _ _ hc, h1]

theorem byteInv_run (l : List Nat) : ∀ (b : ByteState), byteInv b → byteInv (runBytes b l).1 := by
  induction l with
  | nil => intro b hb; exact hb
  | cons c cs ih =>
    intro b hb
    exact ih _ (byteInv_step b c hb)

theorem byteInv_init : byteInv initByte := ⟨rfl, fun _ => rfl⟩

/-- Every line the byte machine emits carries its own first-colon index. -/
theorem runBytes_outs_col (l : List Nat) :
    ∀ (b : ByteState), byteInv b →
      ∀ o ∈ (runBytes b l).2, o.fieldLength = colIdxI o.line := by
  induction l with
  | nil => intro b _ o ho; simp [runBytes] at ho
  | cons c cs ih =>
    intro b hb o ho
    simp only [runBytes, List.mem_append] at ho
    rcases ho with ho | ho
    · -- emitted by this step: the line is the pending line, whose colon
      -- index is tracked by the invariant
      obtain ⟨h1, h2⟩ := hb
      unfold stepByte at ho
      by_cases hd : b.discard = true ∧ c = NewLine
      · rw [if_pos hd] at ho; simp at ho
      · rw [if_neg hd] at ho
        by_cases hc : c = Colon
        · rw [if_pos hc] at ho; simp at ho
        · rw [if_neg hc] at ho
          by_cases hcr : c = CarriageReturn
          · rw [if_pos hcr] at ho
            simp only [List.mem_singleton] at ho
            subst ho; exact h1
          · rw [if_neg hcr] at ho
            by_cases hnl : c = NewLine
            · rw [if_pos hnl] at ho
              simp only [List.mem_singleton] at ho
              subst ho; exact h1
            · rw [if_neg hnl] at ho; simp at ho
    · exact ih _ (byteInv_step b c hb) o ho

/-- Consistency between a chunk-machine state and a byte-machine state:
same discard flag; an empty buffer corresponds to no pending bytes (with the
colon tracking reset), and a non-empty buffer is exactly the pending partial
line, fully scanned (`position` at its end). -/
def goodLR (st : LRState) (b : ByteState) : Prop :=
  b.discard = st.discardTrailingNewline ∧
  match st.buffer with
  | none => b.pending = [] ∧ b.fieldLength = -1
  | some buf =>
    b.pending = buf ∧ b.fieldLength = st.fieldLength ∧ st.position = buf.length ∧ buf ≠ []

theorem goodLR_init : goodLR initLR initByte := ⟨rfl, rfl, rfl⟩

/-- The post-scan buffer adjustment of `processChunk` preserves consistency. -/
theorem goodLR_mk (buf : List Nat) (r : ScanResult) (hpos : r.position = buf.length)
    (hls : r.lineStart ≤ buf.length)
    (hinv : byteInv ⟨buf.drop r.lineStart, r.fieldLength, r.discard⟩) :
    goodLR
      (if r.lineStart = buf.length then ⟨none, r.position, r.fieldLength, r.discard⟩
        else if r.lineStart ≠ 0 then
          ⟨some (buf.drop r.lineStart), r.position - r.lineStart, r.fieldLength, r.discard⟩
        else ⟨some buf, r.position, r.fieldLength, r.discard⟩)
      ⟨buf.drop r.lineStart, r.fieldLength, r.discard⟩ := by
  by_cases h1 : r.lineStart = buf.length
  · rw [if_pos h1]
    have hdrop : buf.drop r.lineStart = [] := List.drop_eq_nil_of_le (by omega)
    refine ⟨rfl, by rw [hdrop], ?_⟩
    have := hinv.1
    rw [hdrop] at this ⊢
    rw [this, colIdxI_nil]
  · rw [if_neg h1]
    by_cases h2 : r.lineStart ≠ 0
    · rw [if_pos h2]
      refine ⟨rfl, rfl, rfl, ?_, ?_⟩
      · show r.position - r.lineStart = (buf.drop r.lineStart).length
        rw [List.length_drop, hpos]
      · rw [← List.length_pos, List.length_drop]
        omega
    · rw [if_neg h2]
      push_neg at h2
      rw [h2] at h1 ⊢
      rw [List.drop_zero]
      refine ⟨rfl, rfl, rfl, hpos, ?_⟩
      rw [← List.length_pos]
      omega

/-- One chunk read of the chunk machine produces exactly the lines the byte
machine produces on the chunk bytes, and the states remain consistent. -/
theorem processChunk_corr (st : LRState) (bs : ByteState) (arr : List Nat)
    (hg : goodLR st bs) (hi : byteInv bs) :
    (runBytes bs arr).2 = (processChunk st arr).2 ∧
    goodLR (processChunk st arr).1 (runBytes bs arr).1 := by
  obtain ⟨hdis, hmatch⟩ := hg
  rcases st with ⟨obuf, position, fieldLength, discard⟩
  rcases bs with ⟨bpend, bfl, bdis⟩
  cases obuf with
  | none =>
    obtain ⟨hpend, hfl⟩ := hmatch
    dsimp at hdis hpend hfl
    subst hpend hfl hdis
    have hc := scanLines_corr arr.length arr 0 0 (-1) bdis arr.length
      (le_refl 0) (Nat.zero_le _) (by omega) (by omega)
    obtain ⟨hpos, hls, hrun⟩ := hc
    simp only [List.take_zero, List.drop_zero, List.drop_nil] at hrun
    have hrun' : runBytes ⟨[], -1, bdis⟩ arr
        = (⟨arr.drop (scanLines arr.length arr 0 0 (-1) bdis).lineStart,
            (scanLines arr.length arr 0 0 (-1) bdis).fieldLength,
            (scanLines arr.length arr 0 0 (-1) bdis).discard⟩,
          (scanLines arr.length arr 0 0 (-1) bdis).outs) := hrun
    show (runBytes ⟨[], -1, bdis⟩ arr).2 = _ ∧ _
    rw [hrun']
    unfold processChunk
    refine ⟨rfl, ?_⟩
    refine goodLR_mk arr (scanLines arr.length arr 0 0 (-1) bdis) hpos hls ?_
    have hbi := byteInv_run arr ⟨[], -1, bdis⟩ hi
    rw [hrun'] at hbi
    exact hbi
  | some b =>
    obtain ⟨hpend, hfl, hposition, hbne⟩ := hmatch
    dsimp at hdis hpend hfl hposition
    subst hpend hfl hdis hposition
    have hc := scanLines_corr (bpend ++ arr).length (bpend ++ arr) bpend.length 0 bfl bdis
      (bpend ++ arr).length (Nat.zero_le _) (by simp) (by omega) (by omega)
    obtain ⟨hpos, hls, hrun⟩ := hc
    rw [List.take_left, List.drop_zero, List.drop_left] at hrun
    show (runBytes ⟨bpend, bfl, bdis⟩ arr).2 = _ ∧ _
    rw [hrun]
    unfold processChunk
    refine ⟨rfl, ?_⟩
    refine goodLR_mk (bpend ++ arr)
      (scanLines (bpend ++ arr).length (bpend ++ arr) bpend.length 0 bfl bdis) hpos hls ?_
    have hbi := byteInv_run arr ⟨bpend, bfl, bdis⟩ hi
    rw [hrun] at hbi
    exact hbi

/-- Whole-stream correspondence: the chunk machine over the chunk list and
the byte machine over the concatenated bytes produce the same lines and end
in consistent states. -/
theorem runChunks_corr (chunks : List (List Nat)) :
    ∀ (st : LRState) (bs : ByteState), goodLR st bs → byteInv bs →
    (runBytes bs chunks.flatten).2 = (runChunks st chunks).2 ∧
    goodLR (runChunks st chunks).1 (runBytes bs chunks.flatten).1 := by
  induction chunks with
  | nil =>
    intro st bs hg hi
    exact ⟨rfl, hg⟩
  | cons c cs ih =>
    intro st bs hg hi
    obtain ⟨h1, h2⟩ := processChunk_corr st bs c hg hi
    obtain ⟨h3, h4⟩ := ih (processChunk st c).1 (runBytes bs c).1 h2
      (byteInv_run c bs hi)
    rw [List.flatten_cons, runBytes_append]
    constructor
    · show (runBytes bs c).2 ++ _ = _
      rw [h1, h3]
      rfl
    · exact h4

/-- `createLineReader` equals the byte-machine line reader on the
concatenation of its chunks. -/
theorem lineReader_eq_bytes (chunks : List (List Nat)) :
    createLineReader chunks = lineReaderBytes chunks.flatten := by
  obtain ⟨houts, hgood⟩ := runChunks_corr chunks initLR initByte goodLR_init byteInv_init
  obtain ⟨hdis, hmatch⟩ := hgood
  rw [show createLineReader chunks =
      (match (runChunks initLR chunks).1.buffer with
        | none => (runChunks initLR chunks).2
        | some b => (runChunks initLR chunks).2
            ++ [⟨b, (runChunks initLR chunks).1.fieldLength⟩]) from rfl]
  rw [show lineReaderBytes chunks.flatten =
      (if (runBytes initByte chunks.flatten).1.pending = [] then
        (runBytes initByte chunks.flatten).2
      else (runBytes initByte chunks.flatten).2
          ++ [⟨(runBytes initByte chunks.flatten).1.pending,
              (runBytes initByte chunks.flatten).1.fieldLength⟩]) from rfl]
  cases hbuf : (runChunks initLR chunks).1.buffer with
  | none =>
    rw [hbuf] at hmatch
    obtain ⟨hpend, -⟩ := hmatch
    show (runChunks initLR chunks).2 = _
    rw [if_pos hpend]
    exact houts.symm
  | some b =>
    rw [hbuf] at hmatch
    obtain ⟨hpend, hfl, -, hbne⟩ := hmatch
    show (runChunks initLR chunks).2
        ++ [⟨b, (runChunks initLR chunks).1.fieldLength⟩] = _
    rw [if_neg (by rw [hpend]; exact hbne), hpend, hfl, houts]

/-! ### Byte-machine facts about terminators, used for the line-terminator
and end-of-stream claims -/

/-- The flush step of the line reader, applied to a byte-machine run. -/
def flushOf (r : ByteState × List LineOut) : List LineOut :=
  if r.1.pending = [] then r.2 else r.2 ++ [⟨r.1.pending, r.1.fieldLength⟩]

theorem lineReaderBytes_eq_flushOf (bytes : List Nat) :
    lineReaderBytes bytes = flushOf (runBytes initByte bytes) := rfl

theorem flushOf_append (s : ByteState) (a b : List Nat) :
    flushOf (runBytes s (a ++ b)) =
      (runBytes s a).2 ++ flushOf (runBytes (runBytes s a).1 b) := by
  rw [runBytes_append]
  unfold flushOf
  by_cases h : (runBytes (runBytes s a).1 b).1.pending = []
  · rw [if_pos h, if_pos h]
  · rw [if_neg h, if_neg h, List.append_assoc]

theorem getLast?_append_singleton (ys : List Nat) (c : Nat) :
    (ys ++ [c]).getLast? = some c :=
  List.getLast?_concat _

theorem stepByte_discard (s : ByteState) (c : Nat) :
    (stepByte s c).1.discard = decide (c = CarriageReturn) := by
  unfold stepByte
  by_cases hd : s.discard = true ∧ c = NewLine
  · rw [if_pos hd, hd.2]
    rfl
  · rw [if_neg hd]
    by_cases hc : c = Colon
    · rw [if_pos hc, hc]; rfl
    · rw [if_neg hc]
      by_cases hcr : c = CarriageReturn
      · rw [if_pos hcr, hcr]; rfl
      · rw [if_neg hcr]
        by_cases hnl : c = NewLine
        · rw [if_pos hnl, hnl]; rfl
        · rw [if_neg hnl]
          simp [hcr]

theorem stepByte_pending_term (s : ByteState) (c : Nat)
    (h : c = NewLine ∨ c = CarriageReturn) : (stepByte s c).1.pending = [] := by
  unfold stepByte
  by_cases hd : s.discard = true ∧ c = NewLine
  · rw [if_pos hd]
  · rw [if_neg hd]
    rcases h with h | h
    · rw [if_neg (by rw [h]; decide), if_neg (by rw [h]; decide), if_pos h]
    · rw [if_neg (by rw [h]; decide), if_pos h]

theorem stepByte_pending_ne (s : ByteState) (c : Nat)
    (h1 : c ≠ NewLine) (h2 : c ≠ CarriageReturn) : (stepByte s c).1.pending ≠ [] := by
  unfold stepByte
  rw [if_neg (by intro hd; exact h1 hd.2)]
  by_cases hc : c = Colon
  · rw [if_pos hc]; simp
  · rw [if_neg hc, if_neg h2, if_neg h1]
    simp

theorem runBytes_discard (bytes : List Nat) (s : ByteState) (h : bytes ≠ []) :
    (runBytes s bytes).1.discard = decide (bytes.getLast? = some CarriageReturn) := by
  rcases List.eq_nil_or_concat bytes with rfl | ⟨ys, c, rfl⟩
  · exact absurd rfl h
  · rw [List.concat_eq_append, runBytes_append]
    show (stepByte (runBytes s ys).1 c).1.discard = _
    rw [stepByte_discard, getLast?_append_singleton]
    simp

theorem runBytes_pending_term (bytes : List Nat) (s : ByteState)
    (h : bytes.getLast? = some NewLine ∨ bytes.getLast? = some CarriageReturn) :
    (runBytes s bytes).1.pending = [] := by
  rcases List.eq_nil_or_concat bytes with rfl | ⟨ys, c, rfl⟩
  · simp at h
  · rw [List.concat_eq_append, runBytes_append]
    show (stepByte (runBytes s ys).1 c).1.pending = []
    rw [List.concat_eq_append, getLast?_append_singleton] at h
    apply stepByte_pending_term
    simpa using h

theorem runBytes_pending_ne (bytes : List Nat) (s : ByteState) (h : bytes ≠ [])
    (h10 : bytes.getLast? ≠ some NewLine) (h13 : bytes.getLast? ≠ some CarriageReturn) :
    (runBytes s bytes).1.pending ≠ [] := by
  rcases List.eq_nil_or_concat bytes with rfl | ⟨ys, c, rfl⟩
  · exact absurd rfl h
  · rw [List.concat_eq_append, runBytes_append]
    show (stepByte (runBytes s ys).1 c).1.pending ≠ []
    rw [List.concat_eq_append, getLast?_append_singleton] at h10 h13
    exact stepByte_pending_ne _ _ (by simpa using h10) (by simpa using h13)

/-- After a carriage return and before the next byte, the three terminators
behave identically as long as the next byte is not a line feed that the
carriage return would swallow. -/
theorem term_equiv (pend : List Nat) (f : Int) (rest : List Nat)
    (hr : rest.head? ≠ some NewLine) :
    flushOf (runBytes ⟨pend, f, false⟩ (CarriageReturn :: rest)) =
      flushOf (runBytes ⟨pend, f, false⟩ (NewLine :: rest)) ∧
    flushOf (runBytes ⟨pend, f, false⟩ (CarriageReturn :: NewLine :: rest)) =
      flushOf (runBytes ⟨pend, f, false⟩ (NewLine :: rest)) := by
  have hcr : stepByte ⟨pend, f, false⟩ CarriageReturn = (⟨[], -1, true⟩, [⟨pend, f⟩]) := by
    rw [stepByte_false, if_neg (by decide), if_pos rfl]
  have hnl : stepByte ⟨pend, f, false⟩ NewLine = (⟨[], -1, false⟩, [⟨pend, f⟩]) := by
    rw [stepByte_false, if_neg (by decide), if_neg (by decide), if_pos rfl]
  have hskip : stepByte ⟨[], (-1 : Int), true⟩ NewLine = (⟨[], -1, false⟩, []) := by
    simp [stepByte]
  have e1 : runBytes ⟨pend, f, false⟩ (CarriageReturn :: rest)
      = ((runBytes ⟨[], -1, true⟩ rest).1,
        [⟨pend, f⟩] ++ (runBytes ⟨[], -1, true⟩ rest).2) := by
    simp only [runBytes, hcr]
  have e2 : runBytes ⟨pend, f, false⟩ (NewLine :: rest)
      = ((runBytes ⟨[], -1, false⟩ rest).1,
        [⟨pend, f⟩] ++ (runBytes ⟨[], -1, false⟩ rest).2) := by
    simp only [runBytes, hnl]
  have e3 : runBytes ⟨pend, f, false⟩ (CarriageReturn :: NewLine :: rest)
      = ((runBytes ⟨[], -1, false⟩ rest).1,
        [⟨pend, f⟩] ++ ([] ++ (runBytes ⟨[], -1, false⟩ rest).2)) := by
    simp only [runBytes, hcr, hskip]
  constructor
  · cases rest with
    | nil =>
      rw [e1, e2]
      unfold flushOf
      simp [runBytes]
    | cons r rs =>
      have hr' : r ≠ NewLine := by simpa using hr
      rw [e1, e2, runBytes_true_of_head_ne [] (-1) r rs hr']
  · rw [e3, e2]
    unfold flushOf
    simp

/-! ### Assembler facts -/

theorem runAssembler_length (ps : List EventSourceMessagePart) :
    ∀ m, (runAssembler m ps).2.length = ps.countP isEventSourceMessagePartEmpty := by
  induction ps with
  | nil => intro m; rfl
  | cons p ps ih =>
    intro m
    cases p <;>
      simp [runAssembler, stepMessage, ih, List.countP_cons, isEventSourceMessagePartEmpty]

/-! ### The claims -/

/-- C1: chunk-boundary invariance of the line splitter.  For every byte
sequence, delivering it as one single chunk produces exactly the same ordered
sequence of (line, separatorOffset) pairs as delivering it split into
arbitrarily many chunks at arbitrary byte boundaries, empty chunks
included. -/
theorem C1_chunk_boundary_invariance (chunks : List (List Nat)) :
    createLineReader chunks = createLineReader [chunks.flatten] := by
  rw [lineReader_eq_bytes chunks, lineReader_eq_bytes [chunks.flatten]]
  simp

/-- C2: terminal emission of the message assembler.  When the field-part
sequence ends, the in-progress message is emitted exactly once more,
whatever its content: the number of messages is always the number of Empty
parts plus one.  In particular the input "id: abc\ndata: def\n" (no trailing
blank line) yields exactly one message, with id "abc", data "def", event ""
and retry unset, at stream end. -/
theorem C2_terminal_emission :
    (∀ chunks : List (List Nat),
      (createEventMessageReader chunks).length
        = (readEventMessagePart chunks).countP isEventSourceMessagePartEmpty + 1) ∧
    createEventMessageReader [strBytes "id: abc\ndata: def\n"]
      = [⟨strBytes "abc", [], strBytes "def", none⟩] := by
  constructor
  · intro chunks
    show ((runAssembler initialMessage (readEventMessagePart chunks)).2
        ++ [(runAssembler initialMessage (readEventMessagePart chunks)).1]).length = _
    rw [List.length_append, runAssembler_length]
    rfl
  · decide

/-- C3: each Empty part consumed emits exactly one message, a value-copy of
the current accumulator, and then resets every field of the accumulator to
its default, so id and event do not persist into the next message. -/
theorem C3_empty_emits_and_resets :
    (∀ (m : EventSourceMessage) (ps : List EventSourceMessagePart),
      runAssembler m (EventSourceMessagePart.empty :: ps)
        = ((runAssembler initialMessage ps).1,
          m :: (runAssembler initialMessage ps).2)) ∧
    createEventMessageReader [strBytes "id: a\nevent: b\n\ndata: c\n\n"]
      = [⟨strBytes "a", strBytes "b", [], none⟩, ⟨[], [], strBytes "c", none⟩,
        ⟨[], [], [], none⟩] := by
  exact ⟨fun m ps => rfl, by decide⟩

/-- C4: multi-line data joining.  A Data part sets data to the value when the
current data is the empty string and otherwise appends a newline and the
value, so consecutive data lines join with a newline in encounter order;
"data: a\ndata: b\n\n" produces the message with data "a\nb" and all other
fields default (followed by the unconditional end-of-stream emission of the
fresh accumulator). -/
theorem C4_data_joining :
    (∀ (m : EventSourceMessage) (v : List Nat),
      stepMessage m (EventSourceMessagePart.data v)
        = ({ m with data := if m.data = [] then v else m.data ++ NewLine :: v }, [])) ∧
    createEventMessageReader [strBytes "data: a\ndata: b\n\n"]
      = [⟨[], [], strBytes "a\nb", none⟩, ⟨[], [], [], none⟩] := by
  exact ⟨fun m v => rfl, by decide⟩

/-- C5: line-terminator equivalence.  A carriage return, a line feed, or the
pair terminate a line identically, and the pair counts as exactly one
terminator (the line feed after a carriage return never yields an extra
empty line), also when the two bytes arrive in different chunks.  The two
hypotheses place the terminator at a genuine line end: the preceding byte is
not itself a carriage return (which would swallow a following line feed) and
the following byte is not a line feed (which a carriage return would
swallow). -/
theorem C5_terminator_equivalence (pre rest : List Nat)
    (hpre : pre.getLast? ≠ some CarriageReturn) (hrest : rest.head? ≠ some NewLine) :
    createLineReader [pre ++ CarriageReturn :: rest]
        = createLineReader [pre ++ NewLine :: rest] ∧
    createLineReader [pre ++ CarriageReturn :: NewLine :: rest]
        = createLineReader [pre ++ NewLine :: rest] ∧
    createLineReader [pre ++ [CarriageReturn], NewLine :: rest]
        = createLineReader [pre ++ CarriageReturn :: NewLine :: rest] := by
  have hsplit : ∀ t : List Nat, createLineReader [pre ++ t]
      = (runBytes initByte pre).2
        ++ flushOf (runBytes (runBytes initByte pre).1 t) := by
    intro t
    rw [lineReader_eq_bytes,
      show ([pre ++ t] : List (List Nat)).flatten = pre ++ t by simp,
      lineReaderBytes_eq_flushOf, flushOf_append]
  rcases hs : (runBytes initByte pre).1 with ⟨p0, f0, d0⟩
  have hd0 : d0 = false := by
    rcases eq_or_ne pre [] with rfl | hne
    · have : (runBytes initByte ([] : List Nat)).1 = initByte := rfl
      rw [this] at hs
      exact (congrArg ByteState.discard hs).symm
    · have := runBytes_discard pre initByte hne
      rw [hs, decide_eq_false hpre] at this
      exact this
  subst hd0
  obtain ⟨ht1, ht2⟩ := term_equiv p0 f0 rest hrest
  refine ⟨?_, ?_, ?_⟩
  · rw [hsplit (CarriageReturn :: rest), hsplit (NewLine :: rest), hs, ht1]
  · rw [hsplit (CarriageReturn :: NewLine :: rest), hsplit (NewLine :: rest), hs, ht2]
  · rw [lineReader_eq_bytes, lineReader_eq_bytes]
    simp [List.append_assoc]

/-- Witness for C5 at a concrete input. -/
theorem C5_terminator_equivalence_witness :
    (strBytes "a").getLast? ≠ some CarriageReturn ∧
    (strBytes "b").head? ≠ some NewLine ∧
    (createLineReader [strBytes "a" ++ CarriageReturn :: strBytes "b"]
        = createLineReader [strBytes "a" ++ NewLine :: strBytes "b"] ∧
      createLineReader [strBytes "a" ++ CarriageReturn :: NewLine :: strBytes "b"]
        = createLineReader [strBytes "a" ++ NewLine :: strBytes "b"] ∧
      createLineReader [strBytes "a" ++ [CarriageReturn], NewLine :: strBytes "b"]
        = createLineReader [strBytes "a" ++ CarriageReturn :: NewLine :: strBytes "b"]) :=
  ⟨by decide, by decide,
    C5_terminator_equivalence (strBytes "a") (strBytes "b") (by decide) (by decide)⟩

/-- C6: for every line the splitter yields (the final non-terminated line
included), the reported separatorOffset is the index of the first colon of
the line, and -1 when the line has no colon; only the first colon counts,
and later colons stay in the value, as the concrete multi-colon line
shows. -/
theorem C6_separator_offset :
    (∀ (chunks : List (List Nat)), ∀ o ∈ createLineReader chunks,
      o.fieldLength = colIdxI o.line) ∧
    createLineReader [strBytes "id: a:b\n"] = [⟨strBytes "id: a:b", 2⟩] ∧
    readEventMessagePart [strBytes "id: a:b\n"]
      = [EventSourceMessagePart.id (strBytes "a:b")] := by
  refine ⟨?_, by decide, by decide⟩
  intro chunks o ho
  rw [lineReader_eq_bytes, lineReaderBytes_eq_flushOf] at ho
  unfold flushOf at ho
  by_cases hp : (runBytes initByte chunks.flatten).1.pending = []
  · rw [if_pos hp] at ho
    exact runBytes_outs_col chunks.flatten initByte byteInv_init o ho
  · rw [if_neg hp] at ho
    rcases List.mem_append.1 ho with ho | ho
    · exact runBytes_outs_col chunks.flatten initByte byteInv_init o ho
    · simp only [List.mem_singleton] at ho
      subst ho
      exact (byteInv_run chunks.flatten initByte byteInv_init).1

/-- Witness for C6 at a concrete input. -/
theorem C6_separator_offset_witness :
    (⟨strBytes "a:b", 1⟩ : LineOut) ∈ createLineReader [strBytes "a:b\n"] ∧
    (⟨strBytes "a:b", 1⟩ : LineOut).fieldLength = colIdxI (⟨strBytes "a:b", 1⟩ : LineOut).line :=
  ⟨by decide,
    C6_separator_offset.1 [strBytes "a:b\n"] ⟨strBytes "a:b", 1⟩ (by decide)⟩

/-- C7: field/value decoding.  The value of a line with positive separator
offset is the bytes after the separator with exactly one leading space
skipped when present; hence "field: value" and "field:value" decode to the
same value (shown for a value that does not itself start with a space, where
they coincide), while "field:  value" keeps the second space. -/
theorem C7_field_value_decoding :
    (∀ (line : List Nat) (fl : Nat),
      fieldValue line fl
        = (if (line.drop (fl + 1)).head? = some Space then (line.drop (fl + 1)).tail
          else line.drop (fl + 1))) ∧
    (∀ (a : Nat) (as : List Nat), a ≠ Space →
      readPart ⟨strBytes "data: " ++ a :: as, 4⟩
        = readPart ⟨strBytes "data:" ++ a :: as, 4⟩) ∧
    readEventMessagePart [strBytes "data: value\n"]
        = [EventSourceMessagePart.data (strBytes "value")] ∧
    readEventMessagePart [strBytes "data:value\n"]
        = [EventSourceMessagePart.data (strBytes "value")] ∧
    readEventMessagePart [strBytes "data:  value\n"]
        = [EventSourceMessagePart.data (strBytes " value")] := by
  refine ⟨?_, ?_, by decide, by decide, by decide⟩
  · intro line fl
    unfold fieldValue
    rw [show (line.drop (fl + 1)).head? = line.get? (fl + 1) by
      rw [List.get?_eq_getElem?]; exact List.head?_drop line (fl + 1)]
    by_cases h : line.get? (fl + 1) = some Space
    · rw [if_pos h, if_pos h, List.tail_drop]
    · rw [if_neg h, if_neg h]
  · intro a as ha
    have h1 : readPart ⟨strBytes "data: " ++ a :: as, 4⟩
        = [EventSourceMessagePart.data (a :: as)] := rfl
    have h2 : readPart ⟨strBytes "data:" ++ a :: as, 4⟩
        = [EventSourceMessagePart.data
            ((strBytes "data:" ++ a :: as).drop
              (4 + if some a = some Space then 2 else 1))] := rfl
    rw [h1, h2, if_neg (by simpa using ha)]
    rfl

/-- Witness for C7 at a concrete input. -/
theorem C7_field_value_decoding_witness :
    (120 : Nat) ≠ Space ∧
    readPart ⟨strBytes "data: " ++ 120 :: strBytes "yz", 4⟩
      = readPart ⟨strBytes "data:" ++ 120 :: strBytes "yz", 4⟩ :=
  ⟨by decide, C7_field_value_decoding.2.1 120 (strBytes "yz") (by decide)⟩

/-- C8: silent-drop semantics of the field parser.  A non-empty line whose
separator offset is not strictly positive (no colon, a comment line, or the
line consisting of just a colon), a line with an unrecognized field name,
and a "retry" line whose value fails integer parsing all produce no field
part; the parser is a total function, so no error is ever raised. -/
theorem C8_silent_drop :
    (∀ (line : List Nat) (f : Int), line ≠ [] → f ≤ 0 → readPart ⟨line, f⟩ = []) ∧
    (∀ (fname v : List Nat), fname ≠ strBytes "data" → fname ≠ strBytes "event" →
      fname ≠ strBytes "id" → fname ≠ strBytes "retry" →
      readPart ⟨fname ++ Colon :: v, (fname.length : Int)⟩ = []) ∧
    (∀ v : List Nat, parseInt10 v = none →
      readPart ⟨strBytes "retry: " ++ v, 5⟩ = []) ∧
    readEventMessagePart [strBytes "foo: bar\n"] = [] ∧
    readEventMessagePart [strBytes "retry: x\n"] = [] ∧
    readEventMessagePart [strBytes ":\n"] = [] ∧
    readPart ⟨strBytes ":", 0⟩ = [] := by
  refine ⟨?_, ?_, ?_, by decide, by decide, by decide, by decide⟩
  · intro line f hne hf
    unfold readPart
    dsimp only
    rw [if_neg (by simpa [List.length_eq_zero] using hne), if_neg (by omega)]
  · intro fname v h1 h2 h3 h4
    unfold readPart
    dsimp only
    by_cases hf : fname = []
    · subst hf
      rw [if_neg (by simp), if_neg (by norm_num)]
    · rw [if_neg (by simp), if_pos (by exact_mod_cast List.length_pos.2 hf),
        show ((fname.length : Int)).toNat = fname.length from rfl,
        List.take_left, if_neg h1, if_neg h2, if_neg h3, if_neg h4]
  · intro v hv
    have h0 : readPart ⟨strBytes "retry: " ++ v, 5⟩
        = (match parseInt10 v with
          | some n => [EventSourceMessagePart.retry n]
          | none => []) := rfl
    rw [h0, hv]

/-- Witness for C8 at concrete inputs. -/
theorem C8_silent_drop_witness :
    ((strBytes "x:", (-1 : Int)) : List Nat × Int).1 ≠ [] ∧
    readPart ⟨strBytes "x:", -1⟩ = [] ∧
    readPart ⟨strBytes "foo" ++ Colon :: strBytes " bar", ((strBytes "foo").length : Int)⟩ = [] ∧
    parseInt10 (strBytes "x") = none ∧
    readPart ⟨strBytes "retry: " ++ strBytes "x", 5⟩ = [] :=
  ⟨by decide,
    C8_silent_drop.1 (strBytes "x:") (-1) (by decide) (by decide),
    C8_silent_drop.2.1 (strBytes "foo") (strBytes " bar")
      (by decide) (by decide) (by decide) (by decide),
    by decide,
    C8_silent_drop.2.2.1 (strBytes "x") (by decide)⟩

/-- C9: end-of-stream behavior of the line splitter.  A stream whose bytes do
not end with a terminator yields its buffered bytes exactly once as a final
non-terminated line with the separatorOffset tracked for it — so it yields
exactly what the same stream with a terminating newline appended yields.
A stream ending exactly on a terminator leaves the buffer empty, so the
final flush yields nothing: the output is exactly the terminated-line
output of the byte machine. -/
theorem C9_end_of_stream (bytes : List Nat) :
    (bytes ≠ [] → bytes.getLast? ≠ some NewLine → bytes.getLast? ≠ some CarriageReturn →
      createLineReader [bytes] = createLineReader [bytes ++ [NewLine]]) ∧
    (∀ c, c = NewLine ∨ c = CarriageReturn →
      (runChunks initLR [bytes ++ [c]]).1.buffer = none ∧
      createLineReader [bytes ++ [c]] = (runBytes initByte (bytes ++ [c])).2) := by
  constructor
  · intro h h10 h13
    rw [lineReader_eq_bytes, lineReader_eq_bytes,
      show ([bytes] : List (List Nat)).flatten = bytes by simp,
      show ([bytes ++ [NewLine]] : List (List Nat)).flatten = bytes ++ [NewLine] by simp,
      lineReaderBytes_eq_flushOf, lineReaderBytes_eq_flushOf, flushOf_append]
    rcases hs : (runBytes initByte bytes).1 with ⟨p0, f0, d0⟩
    have hpend : p0 ≠ [] := by
      have := runBytes_pending_ne bytes initByte h h10 h13
      rw [hs] at this
      exact this
    have hd0 : d0 = false := by
      have := runBytes_discard bytes initByte h
      rw [hs, decide_eq_false h13] at this
      exact this
    subst hd0
    have hnlrun : runBytes ⟨p0, f0, false⟩ [NewLine] = (⟨[], -1, false⟩, [⟨p0, f0⟩]) := by
      rw [show runBytes ⟨p0, f0, false⟩ [NewLine]
          = ((stepByte ⟨p0, f0, false⟩ NewLine).1,
            (stepByte ⟨p0, f0, false⟩ NewLine).2 ++ []) from rfl,
        stepByte_false, if_neg (by decide), if_neg (by decide), if_pos rfl]
      rfl
    rw [hnlrun]
    unfold flushOf
    rw [hs]
    dsimp only
    rw [if_neg hpend]
    simp
  · intro c hc
    have hpend0 : (runBytes initByte (bytes ++ [c])).1.pending = [] := by
      apply runBytes_pending_term
      rw [getLast?_append_singleton]
      rcases hc with rfl | rfl
      · left; rfl
      · right; rfl
    constructor
    · obtain ⟨houts, hgood⟩ :=
        runChunks_corr [bytes ++ [c]] initLR initByte goodLR_init byteInv_init
      obtain ⟨hdis, hmatch⟩ := hgood
      cases hbuf : (runChunks initLR [bytes ++ [c]]).1.buffer with
      | none => rfl
      | some b =>
        rw [hbuf] at hmatch
        obtain ⟨hpend, -, -, hbne⟩ := hmatch
        rw [show ([bytes ++ [c]] : List (List Nat)).flatten = bytes ++ [c] by simp] at hpend
        exact absurd (hpend.symm.trans hpend0) hbne
    · rw [lineReader_eq_bytes,
        show ([bytes ++ [c]] : List (List Nat)).flatten = bytes ++ [c] by simp,
        lineReaderBytes_eq_flushOf]
      unfold flushOf
      rw [if_pos hpend0]

/-- Witness for C9 at concrete inputs. -/
theorem C9_end_of_stream_witness :
    (strBytes "a:b" ≠ [] ∧
      (strBytes "a:b").getLast? ≠ some NewLine ∧
      (strBytes "a:b").getLast? ≠ some CarriageReturn ∧
      createLineReader [strBytes "a:b"] = createLineReader [strBytes "a:b" ++ [NewLine]]) ∧
    ((runChunks initLR [strBytes "a" ++ [NewLine]]).1.buffer = none ∧
      createLineReader [strBytes "a" ++ [NewLine]]
        = (runBytes initByte (strBytes "a" ++ [NewLine])).2) :=
  ⟨⟨by decide, by decide, by decide,
      (C9_end_of_stream (strBytes "a:b")).1 (by decide) (by decide) (by decide)⟩,
    (C9_end_of_stream (strBytes "a")).2 NewLine (Or.inl rfl)⟩

/-- C10: lenient retry parsing.  A "retry" line produces a Retry part exactly
when parseInt(value, 10) does not evaluate to NaN, and the Retry value is
that parseInt result — so "512abc" yields 512 and "-5" yields -5 rather than
being dropped. -/
theorem C10_lenient_retry :
    (∀ v : List Nat,
      readPart ⟨strBytes "retry: " ++ v, 5⟩
        = (match parseInt10 v with
          | some n => [EventSourceMessagePart.retry n]
          | none => [])) ∧
    readEventMessagePart [strBytes "retry: 512abc\n"]
        = [EventSourceMessagePart.retry 512] ∧
    readEventMessagePart [strBytes "retry: -5\n"]
        = [EventSourceMessagePart.retry (-5)] ∧
    parseInt10 (strBytes "512abc") = some 512 ∧
    parseInt10 (strBytes "-5") = some (-5) :=
  ⟨fun v => rfl, by decide, by decide, by decide, by decide⟩

end FetchEventSource
